import Mathlib

/-!
Verification of the core computations of the `ore-winrate-analyzer` repository.

The development embeds, in Lean, the four core components of the repository:

* the expected-value estimator `evForSquare` from `src/ev-picks.js`
  (BigInt arithmetic is modelled with `ℕ`/`ℤ`; JavaScript BigInt division
  truncates toward zero, modelled by `Int.tdiv`; a BigInt division by zero
  throws, modelled by an `Option` result);
* the state codec `decodeRound` / `winningSquareFromSlotHash` from
  `src/read-round.js` (byte buffers are lists of naturals; a `DataView` read
  past the end of the buffer throws a `RangeError`, and constructing a
  `PublicKey` from fewer than 32 bytes throws, both modelled by `Except`);
* the decay-weighted posterior estimator `dirichletTimeDecayedPriors` and the
  ranker `topN` from the smart-picks script.  JavaScript floating-point
  numbers are modelled by exact rationals `ℚ`; the decay weight
  `Math.pow(2, -i / halfLife)` is irrational for general `halfLife`, so the
  weight sequence is a parameter `w : ℕ → ℚ` of the model.  The anti-streak
  stage writes `probs[idx] *= f` for an arbitrary integer index, which in
  JavaScript can extend the array past its length with `NaN` and holes; the
  entries are therefore modelled by the type `JSVal` (a number, `NaN`, or a
  hole), and array-level operations (`*=` at an index, `reduce`, `map`)
  follow the JavaScript semantics on that type.
-/

/-! ## Expected-value estimator (`src/ev-picks.js`, `evForSquare`) -/

/-- `evForSquare(deployed, total, aLamports)` from `src/ev-picks.js`.

All operands are JavaScript BigInts; `deployed` and `total` are u64 values
read from the chain and `aLamports` the candidate stake, so all three are
modelled as `ℕ`.  BigInt division truncates toward zero (`Int.tdiv`) and
division by zero throws, hence the `Option` result: `none` models the thrown
`RangeError` when `depNew = 0`. -/
def evForSquare (deployed total aLamports : ℕ) : Option (ℤ × ℤ) :=
  let a : ℤ := (aLamports : ℤ)
  let totalNew : ℤ := (total : ℤ) + a
  let depNew : ℤ := (deployed : ℤ) + a
  if depNew * 1000 = 0 then none
  else
    let base := Int.tdiv (a * 99) 100
    let pot := totalNew - depNew
    let shareNumer := pot * a * 891
    let share := Int.tdiv shareNumer (depNew * 1000)
    let S := base + share
    let EV := -a + Int.tdiv S 25
    some (S, EV)

/-! ## State codec (`src/read-round.js`) -/

/-- The little-endian 64-bit word formed by the eight bytes of `data`
starting at `o` (the value computed by `DataView.getBigUint64(o, true)`). -/
def le64word (data : List ℕ) (o : ℕ) : ℕ :=
  data.getD o 0 + 256 * (data.getD (o+1) 0 + 256 * (data.getD (o+2) 0 +
    256 * (data.getD (o+3) 0 + 256 * (data.getD (o+4) 0 + 256 * (data.getD (o+5) 0 +
    256 * (data.getD (o+6) 0 + 256 * data.getD (o+7) 0))))))

/-- `le64(buf, offset)` from `src/read-round.js`: a `DataView.getBigUint64`
read, which throws a `RangeError` when the 8 bytes run past the buffer. -/
def le64 (data : List ℕ) (o : ℕ) : Except String ℕ :=
  if o + 8 ≤ data.length then .ok (le64word data o) else .error "RangeError"

/-- The loop `for (i = 0; i < k; i++) { push(le64(data, o)); o += 8 }`
used by `decodeRound` for the `deployed` and `count` arrays. -/
def readWords (data : List ℕ) (o : ℕ) : ℕ → Except String (List ℕ)
  | 0 => .ok []
  | k+1 => do
    let x ← le64 data o
    let rest ← readWords data (o + 8) (k : ℕ)
    .ok (x :: rest)

/-- `new PublicKey(data.subarray(o, o + 32))`: `subarray` clamps to the end of
the buffer, and the `PublicKey` constructor then throws unless it received
exactly 32 bytes. -/
def readPubkey (data : List ℕ) (o : ℕ) : Except String (List ℕ) :=
  let b := (data.drop o).take 32
  if b.length = 32 then .ok b else .error "Invalid public key input"

/-- The record decoded by `decodeRound` in `src/read-round.js`. -/
structure RoundState where
  id : ℕ
  deployed : List ℕ
  slot_hash : List ℕ
  count : List ℕ
  expires_at : ℕ
  motherlode : ℕ
  rent_payer : List ℕ
  top_miner : List ℕ
  top_miner_reward : ℕ
  total_deployed : ℕ
  total_vaulted : ℕ
  total_winnings : ℕ
deriving DecidableEq

/-- `decodeRound(accData)` from `src/read-round.js`.  The function checks only
`accData.length < 8` up front (throwing the generic `'Round data too short'`),
skips the 8-byte discriminator, and then performs the fixed-layout reads in
order; any read past the end of the remaining buffer throws at that read. -/
def decodeRound (accData : List ℕ) : Except String RoundState :=
  if accData.length < 8 then .error "Round data too short"
  else
    let data := accData.drop 8
    do
      let id ← le64 data 0
      let deployed ← readWords data 8 25
      let slot_hash := (data.drop 208).take 32
      let count ← readWords data 240 25
      let expires_at ← le64 data 440
      let motherlode ← le64 data 448
      let rent_payer ← readPubkey data 456
      let top_miner ← readPubkey data 488
      let top_miner_reward ← le64 data 520
      let total_deployed ← le64 data 528
      let total_vaulted ← le64 data 536
      let total_winnings ← le64 data 544
      .ok { id := id, deployed := deployed, slot_hash := slot_hash, count := count,
            expires_at := expires_at, motherlode := motherlode,
            rent_payer := rent_payer, top_miner := top_miner,
            top_miner_reward := top_miner_reward, total_deployed := total_deployed,
            total_vaulted := total_vaulted, total_winnings := total_winnings }

/-- The tagged winning-square outcome of `winningSquareFromSlotHash`:
`{status: 'unavailable'}`, `{status: 'refund'}`, or `{status: 'ok', index}`. -/
inductive WinStatus where
  | unavailable
  | refund
  | ok (index : ℕ)
deriving DecidableEq

/-- `isAll(buf, value)` from `src/read-round.js`. -/
def isAll (buf : List ℕ) (value : ℕ) : Bool :=
  buf.all (fun b => b == value)

/-- `winningSquareFromSlotHash(slotHashBuf)` from `src/read-round.js`. -/
def winningSquareFromSlotHash (slotHashBuf : List ℕ) : WinStatus :=
  if slotHashBuf.length ≠ 32 then .unavailable
  else if isAll slotHashBuf 0 then .unavailable
  else if isAll slotHashBuf 255 then .refund
  else
    let r1 := le64word slotHashBuf 0
    let r2 := le64word slotHashBuf 8
    let r3 := le64word slotHashBuf 16
    let r4 := le64word slotHashBuf 24
    .ok ((r1 ^^^ r2 ^^^ r3 ^^^ r4) % 25)

/-! ## Decay-weighted posterior estimator (smart-picks script) -/

/-- One record of `winners.json`: `{round, blockNumber}`.  `blockNumber` is an
arbitrary integer (the code tolerates malformed, out-of-range values). -/
structure WinnerRecord where
  round : ℤ
  blockNumber : ℤ
deriving DecidableEq

/-- Stable insertion of a record into a list already sorted by `round`
descending, placing `r` before the first element whose round is not greater.
Together with `sortByRoundDesc` this models the stable JavaScript
`sort((a, b) => b.round - a.round)`. -/
def insertByRoundDesc (r : WinnerRecord) : List WinnerRecord → List WinnerRecord
  | [] => [r]
  | x :: xs => if x.round > r.round then x :: insertByRoundDesc r xs else r :: x :: xs

/-- Stable sort by `round` descending (earlier elements are inserted last and
land before equal-round elements, as a stable sort requires). -/
def sortByRoundDesc : List WinnerRecord → List WinnerRecord
  | [] => []
  | x :: xs => insertByRoundDesc x (sortByRoundDesc xs)

/-- `[...winners].sort((a, b) => b.round - a.round).slice(0, maxRounds)`. -/
def sortedWindow (winners : List WinnerRecord) (maxRounds : ℕ) : List WinnerRecord :=
  (sortByRoundDesc winners).take maxRounds

/-- The counting loop: `if (Number.isInteger(idx0) && idx0 >= 0 && idx0 < N)
counts[idx0] += weights[i]`, with `weights[i] = w i`. -/
def accumCounts (w : ℕ → ℚ) : List WinnerRecord → ℕ → List ℚ → List ℚ
  | [], _, counts => counts
  | r :: rest, i, counts =>
    let counts' :=
      if 0 ≤ r.blockNumber ∧ r.blockNumber < 25 then
        counts.set r.blockNumber.toNat (counts.getD r.blockNumber.toNat 0 + w i)
      else counts
    accumCounts w rest (i + 1) counts'

/-- The decayed counts vector (25 entries, initially all zero). -/
def countsList (w : ℕ → ℚ) (sorted : List WinnerRecord) : List ℚ :=
  accumCounts w sorted 0 (List.replicate 25 0)

/-- `counts.map((w) => (alpha + w) / (N * alpha + sumW))`, the posterior mean.
In `ℚ` a division by zero yields `0`; in JavaScript it yields `NaN` or `±∞`,
and in both semantics the renormalization step then takes its uniform
fallback branch, so the two models agree on the function's output. -/
def basePosterior (alpha : ℚ) (counts : List ℚ) : List ℚ :=
  counts.map (fun c => (alpha + c) / (25 * alpha + counts.sum))

/-- A JavaScript array slot in the probability vector: a number, `NaN`, or a
hole (an index below `length` that was never assigned). -/
inductive JSVal where
  | num (q : ℚ)
  | nan
  | hole
deriving DecidableEq

/-- `v * f` for a value read from an array slot: reading a hole gives
`undefined`, and both `undefined * f` and `NaN * f` are `NaN`. -/
def jsMul (v : JSVal) (f : ℚ) : JSVal :=
  match v with
  | .num q => .num (q * f)
  | _ => .nan

/-- `probs[idx] *= f` for an integer `idx`.  A negative `idx` creates a
non-index property that every later array operation ignores.  An `idx` at or
past the length extends the array: the skipped slots become holes and slot
`idx` becomes `NaN` (`undefined * f`). -/
def jsMulAt (l : List JSVal) (idx : ℤ) (f : ℚ) : List JSVal :=
  if idx < 0 then l
  else
    let i := idx.toNat
    if h : i < l.length then l.set i (jsMul (l.get ⟨i, h⟩) f)
    else l ++ List.replicate (i - l.length) .hole ++ [.nan]

/-- The anti-streak stage: `probs[recentIdx0] *= 0.6; probs[prevIdx0] *= 0.8`,
each applied only when the corresponding window entry exists (its
`blockNumber` being an integer in this model). -/
def penalize (probs : List JSVal) (sorted : List WinnerRecord) : List JSVal :=
  let probs2 := match sorted.head? with
    | some r => jsMulAt probs r.blockNumber (6/10)
    | none => probs
  match sorted[1]? with
  | some r => jsMulAt probs2 r.blockNumber (8/10)
  | none => probs2

/-- One step of `probs.reduce((a, b) => a + b, 0)`: holes are skipped and
`NaN` poisons the accumulator. -/
def jsAdd (s v : JSVal) : JSVal :=
  match s, v with
  | _, .hole => s
  | .num a, .num b => .num (a + b)
  | _, _ => .nan

/-- `probs.reduce((a, b) => a + b, 0)`. -/
def jsSum (l : List JSVal) : JSVal :=
  l.foldl jsAdd (.num 0)

/-- `s > 0` in JavaScript: false whenever `s` is `NaN`. -/
def jsGtZero (s : JSVal) : Bool :=
  match s with
  | .num q => decide (0 < q)
  | _ => false

/-- `v / s` for present entries (only evaluated under `s > 0`). -/
def jsDiv (v s : JSVal) : JSVal :=
  match v, s with
  | .num a, .num b => .num (a / b)
  | _, _ => .nan

/-- `const s = probs.reduce(...); probs.map((p) => s > 0 ? p / s : 1 / N)`:
`map` preserves holes and visits every present entry. -/
def renormalize (probs : List JSVal) : List JSVal :=
  let s := jsSum probs
  probs.map (fun v =>
    match v with
    | .hole => .hole
    | v => if jsGtZero s then jsDiv v s else .num (1/25))

/-- `dirichletTimeDecayedPriors(winners, options)` from the smart-picks
script.  `alpha` and `maxRounds` are the configuration values; `w i` stands
for the decay weight `Math.pow(2, -i / halfLife)` of window position `i`
(irrational for general `halfLife`, hence a parameter of the model). -/
def dirichletTimeDecayedPriors (winners : List WinnerRecord) (alpha : ℚ)
    (w : ℕ → ℚ) (maxRounds : ℕ) : List JSVal :=
  let sorted := sortedWindow winners maxRounds
  let counts := countsList w sorted
  let probs := basePosterior alpha counts
  renormalize (penalize (probs.map .num) sorted)

/-- The same computation with the anti-streak stage disabled (the posterior
mean renormalized directly).  Used as the comparison point for the
anti-streak property. -/
def dirichletNoPenalty (winners : List WinnerRecord) (alpha : ℚ)
    (w : ℕ → ℚ) (maxRounds : ℕ) : List JSVal :=
  let sorted := sortedWindow winners maxRounds
  renormalize ((basePosterior alpha (countsList w sorted)).map .num)

/-! ## Ranker (`topN`) -/

/-- The order in which `topN` emits pairs: descending by value, ties broken by
ascending index.  The JavaScript `arr.sort((a, b) => b.p - a.p)` is a stable
sort of the index-enumerated array, which coincides with sorting by this
total order because the enumeration's indices are strictly increasing. -/
def lexDesc (a b : ℕ × ℚ) : Prop :=
  b.2 < a.2 ∨ (a.2 = b.2 ∧ a.1 ≤ b.1)

instance : DecidableRel lexDesc := fun a b => by
  unfold lexDesc; exact inferInstance

instance : IsTotal (ℕ × ℚ) lexDesc where
  total a b := by
    unfold lexDesc
    rcases lt_trichotomy a.2 b.2 with h | h | h
    · exact Or.inr (Or.inl h)
    · rcases Nat.le_total a.1 b.1 with h' | h'
      · exact Or.inl (Or.inr ⟨h, h'⟩)
      · exact Or.inr (Or.inr ⟨h.symm, h'⟩)
    · exact Or.inl (Or.inl h)

instance : IsTrans (ℕ × ℚ) lexDesc where
  trans a b c hab hbc := by
    unfold lexDesc at *
    rcases hab with h1 | ⟨h1, h1'⟩
    · rcases hbc with h2 | ⟨h2, h2'⟩
      · exact Or.inl (h2.trans h1)
      · exact Or.inl (h2 ▸ h1)
    · rcases hbc with h2 | ⟨h2, h2'⟩
      · exact Or.inl (h1 ▸ h2)
      · exact Or.inr ⟨h1.trans h2, h1'.trans h2'⟩

/-- The fully sorted enumerated vector `probs.map((p, i) => {i, p}).sort(...)`. -/
def sortedEnum (probs : List ℚ) : List (ℕ × ℚ) :=
  List.insertionSort lexDesc probs.enum

/-- `topN(probs, n)` from the smart-picks script (the `index1 = i + 1` field
is derived presentation data and is omitted). -/
def topN (probs : List ℚ) (n : ℕ) : List (ℕ × ℚ) :=
  (sortedEnum probs).take n

/-! ## Helper lemmas -/

theorem tdiv_coe (m n : ℕ) : Int.tdiv (m : ℤ) (n : ℤ) = ((m / n : ℕ) : ℤ) := rfl

theorem exc_bind_ok {α β : Type} (a : α) (f : α → Except String β) :
    (Except.ok a >>= f) = f a := rfl

theorem exc_bind_err {α β : Type} (e : String) (f : α → Except String β) :
    ((Except.error e : Except String α) >>= f) = Except.error e := rfl

theorem exc_ok_of_bind {α β : Type} {e : Except String α} {f : α → Except String β} {b : β}
    (h : (e >>= f) = .ok b) : ∃ a, e = .ok a ∧ f a = .ok b := by
  cases e with
  | error s => rw [exc_bind_err] at h; exact absurd h (by simp)
  | ok a => exact ⟨a, rfl, h⟩

theorem le64_ok (data : List ℕ) (o : ℕ) (h : o + 8 ≤ data.length) :
    le64 data o = .ok (le64word data o) := by
  simp [le64, h]

theorem le64_ok_length {data : List ℕ} {o x : ℕ} (h : le64 data o = .ok x) :
    o + 8 ≤ data.length := by
  by_contra hc
  rw [le64, if_neg hc] at h
  exact absurd h (by simp)

theorem readWords_ok (data : List ℕ) : ∀ (k o : ℕ), o + 8 * k ≤ data.length →
    ∃ ws, readWords data o k = .ok ws := by
  intro k
  induction k with
  | zero => intro o _; exact ⟨[], rfl⟩
  | succ n ih =>
    intro o h
    rcases ih (o + 8) (by omega) with ⟨ws, hws⟩
    refine ⟨le64word data o :: ws, ?_⟩
    rw [readWords, le64_ok data o (by omega), exc_bind_ok, hws, exc_bind_ok]

theorem readWords_ok_length {data : List ℕ} : ∀ {k o : ℕ} {ws : List ℕ},
    readWords data o k = .ok ws → 1 ≤ k → o + 8 * k ≤ data.length := by
  intro k
  induction k with
  | zero => intro o ws _ h1; omega
  | succ n ih =>
    intro o ws h _
    rw [readWords] at h
    rcases exc_ok_of_bind h with ⟨x, hx, h⟩
    rcases exc_ok_of_bind h with ⟨rest, hrest, _⟩
    have h8 := le64_ok_length hx
    rcases Nat.eq_zero_or_pos n with hn | hn
    · omega
    · have := ih hrest hn; omega

theorem readPubkey_ok (data : List ℕ) (o : ℕ) (h : o + 32 ≤ data.length) :
    readPubkey data o = .ok ((data.drop o).take 32) := by
  have hl : ((data.drop o).take 32).length = 32 := by
    simp [List.length_take, List.length_drop]; omega
  simp [readPubkey, hl]

theorem readPubkey_ok_length {data : List ℕ} {o : ℕ} {b : List ℕ}
    (h : readPubkey data o = .ok b) : o + 32 ≤ data.length := by
  by_contra hc
  have hl : ((data.drop o).take 32).length ≠ 32 := by
    simp [List.length_take, List.length_drop]; omega
  rw [readPubkey] at h
  simp only [if_neg hl] at h
  exact absurd h (by simp)
/-! ## C10: EV divisions are safe for positive stake -/

/-- C10: for every stake `a > 0` the EV computation's one data-dependent
divisor `depNew * 1000 = (d + a) * 1000` is nonzero and the computation
succeeds (the other divisors are the constants 100 and 25); the
division-by-zero branch is reachable only when `a = 0` and `d = 0`. -/
theorem evForSquare_division_safe (deployed total a : ℕ) :
    (0 < a → ((deployed : ℤ) + (a : ℤ)) * 1000 ≠ 0 ∧
      (evForSquare deployed total a).isSome = true) ∧
    (evForSquare deployed total a = none → a = 0 ∧ deployed = 0) := by
  have hcond : (((deployed : ℤ) + (a : ℤ)) * 1000 = 0) ↔ (a = 0 ∧ deployed = 0) := by
    constructor
    · intro h; constructor <;> omega
    · rintro ⟨rfl, rfl⟩; simp
  constructor
  · intro ha
    have hne : ((deployed : ℤ) + (a : ℤ)) * 1000 ≠ 0 := fun hc => by
      rcases hcond.1 hc with ⟨h1, _⟩; omega
    refine ⟨hne, ?_⟩
    simp only [evForSquare, if_neg hne, Option.isSome_some]
  · intro h
    by_cases hc : ((deployed : ℤ) + (a : ℤ)) * 1000 = 0
    · exact hcond.1 hc
    · simp only [evForSquare, if_neg hc] at h
      exact absurd h (by simp)

/-- Witness for `evForSquare_division_safe` at `deployed = 3`, `total = 5`,
`a = 2`. -/
theorem evForSquare_division_safe_witness :
    ((3 : ℤ) + (2 : ℤ)) * 1000 ≠ 0 ∧ (evForSquare 3 5 2).isSome = true := by
  have h := (evForSquare_division_safe 3 5 2).1 (by norm_num)
  exact ⟨by norm_num, h.2⟩

/-! ## C5: the EV estimator performs no stake/shape validation -/

/-- Counterexample to C5: with stake `a = 0` (which the claim says must fail
with `InvalidStakeError`) and a positive deployed amount, `evForSquare`
succeeds and returns `S_win = 0`, `EV = 0`. -/
theorem evForSquare_zero_stake_succeeds : evForSquare 1 25 0 = some (0, 0) := by decide

/-- C5 (amended): `evForSquare` validates nothing; its only failure is the
thrown division by zero, occurring exactly when `deployed + a = 0`. -/
theorem evForSquare_none_iff (deployed total a : ℕ) :
    evForSquare deployed total a = none ↔ deployed + a = 0 := by
  constructor
  · intro h
    by_cases hc : ((deployed : ℤ) + (a : ℤ)) * 1000 = 0
    · omega
    · simp only [evForSquare, if_neg hc] at h
      exact absurd h (by simp)
  · intro h
    have hc : ((deployed : ℤ) + (a : ℤ)) * 1000 = 0 := by
      have h1 : deployed = 0 := by omega
      have h2 : a = 0 := by omega
      subst h1; subst h2; simp
    simp only [evForSquare, if_pos hc]

/-! ## C2: the EV formula in exact integer arithmetic -/

/-- C2: for a 25-entry deployed vector `ds` with total `T = ds.sum`, a stake
`a > 0` and any square `i < 25`, `evForSquare` returns exactly
`S_win = ⌊0.99 a⌋ + ⌊(totalNew - depNew) * a * 0.891 / depNew⌋` (with
`totalNew = T + a`, `depNew = d_i + a`, and `0.891 = 891/1000` exact) and
`EV = -a + ⌊S_win / 25⌋`, all divisions being floor divisions on
nonnegative integers; `ℕ`/`ℤ` are arbitrary precision, so no intermediate
product can overflow. -/
theorem evForSquare_formula (ds : List ℕ) (a i : ℕ)
    (hlen : ds.length = 25) (ha : 0 < a) (hi : i < 25) :
    evForSquare (ds.getD i 0) ds.sum a =
      some
        (((a * 99 / 100 + (ds.sum + a - (ds.getD i 0 + a)) * a * 891 /
            ((ds.getD i 0 + a) * 1000) : ℕ) : ℤ),
         -(a : ℤ) + ((a * 99 / 100 + (ds.sum + a - (ds.getD i 0 + a)) * a * 891 /
            ((ds.getD i 0 + a) * 1000)) / 25 : ℕ)) := by
  have hmem : ds.getD i 0 ∈ ds := by
    rw [List.getD_eq_getElem ds 0 (by omega)]
    exact List.getElem_mem _
  have hd : ds.getD i 0 ≤ ds.sum := List.le_sum_of_mem hmem
  set d := ds.getD i 0 with hdDef
  set T := ds.sum with hTDef
  have hne : ((d : ℤ) + (a : ℤ)) * 1000 ≠ 0 := by
    intro hc; omega
  simp only [evForSquare, if_neg hne]
  have hbase : Int.tdiv ((a : ℤ) * 99) 100 = ((a * 99 / 100 : ℕ) : ℤ) := by
    have : ((a : ℤ) * 99) = ((a * 99 : ℕ) : ℤ) := by push_cast; ring
    rw [this]
    exact tdiv_coe (a * 99) 100
  have hpot : (T : ℤ) + (a : ℤ) - ((d : ℤ) + (a : ℤ)) = ((T + a - (d + a) : ℕ) : ℤ) := by
    omega
  have hshare : Int.tdiv (((T : ℤ) + (a : ℤ) - ((d : ℤ) + (a : ℤ))) * (a : ℤ) * 891)
      (((d : ℤ) + (a : ℤ)) * 1000) =
      (((T + a - (d + a)) * a * 891 / ((d + a) * 1000) : ℕ) : ℤ) := by
    rw [hpot]
    have h1 : (((T + a - (d + a) : ℕ) : ℤ)) * (a : ℤ) * 891 =
        (((T + a - (d + a)) * a * 891 : ℕ) : ℤ) := by push_cast; ring
    have h2 : ((d : ℤ) + (a : ℤ)) * 1000 = (((d + a) * 1000 : ℕ) : ℤ) := by push_cast; ring
    rw [h1, h2]
    exact tdiv_coe _ _
  rw [hbase, hshare]
  have hsum : ((a * 99 / 100 : ℕ) : ℤ) + (((T + a - (d + a)) * a * 891 / ((d + a) * 1000) : ℕ) : ℤ) =
      ((a * 99 / 100 + (T + a - (d + a)) * a * 891 / ((d + a) * 1000) : ℕ) : ℤ) := by
    push_cast; ring
  rw [hsum]
  simp only [Option.some.injEq, Prod.mk.injEq]
  refine ⟨trivial, ?_⟩
  congr 1

/-- Witness for `evForSquare_formula`: 25 squares with 4 lamports each
(`T = 100`), stake 10 on square 0. -/
theorem evForSquare_formula_witness :
    (0 : ℕ) < 10 ∧ evForSquare 4 100 10 = some (70, -8) := by
  refine ⟨by norm_num, ?_⟩
  have h := evForSquare_formula (List.replicate 25 4) 10 0 (by simp) (by norm_num) (by norm_num)
  norm_num [List.sum_replicate] at h
  convert h using 2

/-! ## C1: winning-square derivation -/

/-- C1: for every 32-byte buffer, the derivation returns the tagged result:
`unavailable` when all bytes are zero, `refund` when all bytes are `0xFF`,
and otherwise `Resolved(index)` with
`index = (r1 XOR r2 XOR r3 XOR r4) mod 25 < 25`, the `r`s being the four
little-endian 64-bit words of the buffer. -/
theorem winningSquareFromSlotHash_spec (buf : List ℕ) (hlen : buf.length = 32) :
    ((∀ b ∈ buf, b = 0) → winningSquareFromSlotHash buf = .unavailable) ∧
    ((∀ b ∈ buf, b = 255) → winningSquareFromSlotHash buf = .refund) ∧
    ((¬ ∀ b ∈ buf, b = 0) → (¬ ∀ b ∈ buf, b = 255) →
      winningSquareFromSlotHash buf =
        .ok ((le64word buf 0 ^^^ le64word buf 8 ^^^ le64word buf 16 ^^^ le64word buf 24) % 25) ∧
      (le64word buf 0 ^^^ le64word buf 8 ^^^ le64word buf 16 ^^^ le64word buf 24) % 25 < 25) := by
  have hAll : ∀ v : ℕ, isAll buf v = true ↔ ∀ b ∈ buf, b = v := by
    intro v
    simp [isAll, List.all_eq_true]
  have hlen' : ¬ buf.length ≠ 32 := by omega
  refine ⟨?_, ?_, ?_⟩
  · intro h0
    rw [winningSquareFromSlotHash, if_neg hlen', if_pos ((hAll 0).2 h0)]
  · intro h255
    by_cases h0 : isAll buf 0 = true
    · have : ∀ b ∈ buf, b = 0 := (hAll 0).1 h0
      have hne : buf ≠ [] := by intro h; rw [h] at hlen; simp at hlen
      rcases List.exists_mem_of_ne_nil buf hne with ⟨b, hb⟩
      have := (this b hb).symm.trans (h255 b hb)
      omega
    · rw [winningSquareFromSlotHash, if_neg hlen', if_neg h0, if_pos ((hAll 255).2 h255)]
  · intro h0 h255
    have h0' : ¬ isAll buf 0 = true := fun hc => h0 ((hAll 0).1 hc)
    have h255' : ¬ isAll buf 255 = true := fun hc => h255 ((hAll 255).1 hc)
    refine ⟨?_, Nat.mod_lt _ (by norm_num)⟩
    rw [winningSquareFromSlotHash, if_neg hlen', if_neg h0', if_neg h255']

/-- Witness for `winningSquareFromSlotHash_spec`: the buffer `01 00 ... 00`
resolves to square `1 mod 25 = 1`. -/
theorem winningSquareFromSlotHash_spec_witness :
    winningSquareFromSlotHash (1 :: List.replicate 31 0) = WinStatus.ok 1 := by
  have h := (winningSquareFromSlotHash_spec (1 :: List.replicate 31 0) (by decide)).2.2
    (by decide) (by decide)
  rw [h.1]
  decide

/-! ## C4: decodeRound length behaviour -/

set_option maxRecDepth 100000 in
/-- Counterexample to C4: the claim's own minimum, a 498-byte buffer, does
not decode successfully; the failure is the `PublicKey` constructor for
`top_miner` (bytes 496..528 of the account data), and no
`TruncatedBufferError` carrying a minimum length exists anywhere in the
code. -/
theorem decodeRound_at_498 :
    decodeRound (List.replicate 498 0) = .error "Invalid public key input" := by rfl

/-- C4 (amended): `decodeRound` succeeds exactly on buffers of at least
560 bytes (8-byte discriminator + 552 bytes of fields, the true fixed layout
size); shorter buffers fail, with the generic `'Round data too short'` only
below 8 bytes and a `DataView`/`PublicKey` error otherwise. -/
theorem decodeRound_ok_iff (accData : List ℕ) :
    (∃ r, decodeRound accData = .ok r) ↔ 560 ≤ accData.length := by
  constructor
  · rintro ⟨r, h⟩
    by_contra hlen
    simp only [decodeRound] at h
    split_ifs at h with h8
    rcases exc_ok_of_bind h with ⟨v1, h1, h⟩
    rcases exc_ok_of_bind h with ⟨v2, h2, h⟩
    rcases exc_ok_of_bind h with ⟨v3, h3, h⟩
    rcases exc_ok_of_bind h with ⟨v4, h4, h⟩
    rcases exc_ok_of_bind h with ⟨v5, h5, h⟩
    rcases exc_ok_of_bind h with ⟨v6, h6, h⟩
    rcases exc_ok_of_bind h with ⟨v7, h7, h⟩
    rcases exc_ok_of_bind h with ⟨v8, h8', h⟩
    rcases exc_ok_of_bind h with ⟨v9, h9, h⟩
    rcases exc_ok_of_bind h with ⟨v10, h10, h⟩
    rcases exc_ok_of_bind h with ⟨v11, h11, h⟩
    have hw := le64_ok_length h11
    rw [List.length_drop] at hw
    omega
  · intro h
    have hdl : (accData.drop 8).length = accData.length - 8 := List.length_drop 8 accData
    rcases readWords_ok (accData.drop 8) 25 8 (by omega) with ⟨dep, hdep⟩
    rcases readWords_ok (accData.drop 8) 25 240 (by omega) with ⟨cnt, hcnt⟩
    have hne : ¬ accData.length < 8 := by omega
    refine ⟨⟨le64word (accData.drop 8) 0, dep, ((accData.drop 8).drop 208).take 32, cnt,
      le64word (accData.drop 8) 440, le64word (accData.drop 8) 448,
      ((accData.drop 8).drop 456).take 32, ((accData.drop 8).drop 488).take 32,
      le64word (accData.drop 8) 520, le64word (accData.drop 8) 528,
      le64word (accData.drop 8) 536, le64word (accData.drop 8) 544⟩, ?_⟩
    simp only [decodeRound]
    rw [if_neg hne, le64_ok _ 0 (by omega), exc_bind_ok, hdep, exc_bind_ok, hcnt, exc_bind_ok,
      le64_ok _ 440 (by omega), exc_bind_ok, le64_ok _ 448 (by omega), exc_bind_ok,
      readPubkey_ok _ 456 (by omega), exc_bind_ok, readPubkey_ok _ 488 (by omega), exc_bind_ok,
      le64_ok _ 520 (by omega), exc_bind_ok, le64_ok _ 528 (by omega), exc_bind_ok,
      le64_ok _ 536 (by omega), exc_bind_ok, le64_ok _ 544 (by omega), exc_bind_ok]

/-- Witness for `decodeRound_ok_iff`: a 560-byte buffer decodes. -/
theorem decodeRound_ok_iff_witness : ∃ r, decodeRound (List.replicate 560 0) = .ok r := by
  refine (decodeRound_ok_iff (List.replicate 560 0)).mpr ?_
  rw [List.length_replicate]

/-! ## List arithmetic helpers (over `ℚ`) -/

theorem qsum_set (l : List ℚ) : ∀ (i : ℕ) (x : ℚ), i < l.length →
    (l.set i x).sum = l.sum - l.getD i 0 + x := by
  induction l with
  | nil => intro i x h; simp at h
  | cons a t ih =>
    intro i x h
    cases i with
    | zero => simp [List.set]; ring
    | succ n =>
      simp only [List.set, List.sum_cons, List.getD_cons_succ]
      rw [ih n x (by simpa using h)]
      ring

theorem qgetD_nonneg (l : List ℚ) (hnn : ∀ x ∈ l, 0 ≤ x) (i : ℕ) : 0 ≤ l.getD i 0 := by
  by_cases h : i < l.length
  · rw [List.getD_eq_getElem l 0 h]; exact hnn _ (List.getElem_mem h)
  · rw [List.getD_eq_default l 0 (by omega)]

theorem qgetD_pos (l : List ℚ) (hpos : ∀ x ∈ l, 0 < x) (i : ℕ) (h : i < l.length) :
    0 < l.getD i 0 := by
  rw [List.getD_eq_getElem l 0 h]; exact hpos _ (List.getElem_mem h)

theorem qgetD_le_sum (l : List ℚ) (hnn : ∀ x ∈ l, 0 ≤ x) :
    ∀ i, i < l.length → l.getD i 0 ≤ l.sum := by
  induction l with
  | nil => intro i h; simp at h
  | cons a t ih =>
    intro i h
    have hnt : ∀ x ∈ t, 0 ≤ x := fun x hx => hnn x (List.mem_cons_of_mem a hx)
    have ha : 0 ≤ a := hnn a (List.mem_cons_self a t)
    cases i with
    | zero =>
      have : 0 ≤ t.sum := List.sum_nonneg hnt
      simp only [List.getD_cons_zero, List.sum_cons]
      linarith
    | succ n =>
      have := ih hnt n (by simpa using h)
      simp only [List.getD_cons_succ, List.sum_cons]
      linarith

theorem qgetD_lt_sum (l : List ℚ) (hpos : ∀ x ∈ l, 0 < x) (hlen : 2 ≤ l.length) :
    ∀ i, i < l.length → l.getD i 0 < l.sum := by
  cases l with
  | nil => simp at hlen
  | cons a t =>
    intro i h
    have hpt : ∀ x ∈ t, 0 < x := fun x hx => hpos x (List.mem_cons_of_mem a hx)
    have ha : 0 < a := hpos a (List.mem_cons_self a t)
    have ht : t ≠ [] := by
      intro hc
      rw [hc] at hlen
      simp at hlen
    cases i with
    | zero =>
      have : 0 < t.sum := List.sum_pos t hpt ht
      simp only [List.getD_cons_zero, List.sum_cons]
      linarith
    | succ n =>
      have h1 : t.getD n 0 ≤ t.sum :=
        qgetD_le_sum t (fun x hx => le_of_lt (hpt x hx)) n (by simpa using h)
      simp only [List.getD_cons_succ, List.sum_cons]
      linarith

theorem qgetD_pair_le_sum (l : List ℚ) (hnn : ∀ x ∈ l, 0 ≤ x) :
    ∀ i j, i ≠ j → i < l.length → j < l.length →
    l.getD i 0 + l.getD j 0 ≤ l.sum := by
  induction l with
  | nil => intro i j _ h; simp at h
  | cons a t ih =>
    intro i j hij hi hj
    have hnt : ∀ x ∈ t, 0 ≤ x := fun x hx => hnn x (List.mem_cons_of_mem a hx)
    have ha : 0 ≤ a := hnn a (List.mem_cons_self a t)
    cases i with
    | zero =>
      cases j with
      | zero => exact absurd rfl hij
      | succ m =>
        have := qgetD_le_sum t hnt m (by simpa using hj)
        simp only [List.getD_cons_zero, List.getD_cons_succ, List.sum_cons]
        linarith
    | succ n =>
      cases j with
      | zero =>
        have := qgetD_le_sum t hnt n (by simpa using hi)
        simp only [List.getD_cons_zero, List.getD_cons_succ, List.sum_cons]
        linarith
      | succ m =>
        have := ih hnt n m (by omega) (by simpa using hi) (by simpa using hj)
        simp only [List.getD_cons_succ, List.sum_cons]
        linarith

theorem qsum_map_div (l : List ℚ) (c : ℚ) : (l.map (fun p => p / c)).sum = l.sum / c := by
  induction l with
  | nil => simp
  | cons a t ih => simp [ih, add_div]

theorem qsum_map_const (l : List ℚ) (c : ℚ) : (l.map (fun _ => c)).sum = l.length * c := by
  induction l with
  | nil => simp
  | cons a t ih =>
    simp only [List.map_cons, List.sum_cons, List.length_cons, ih]
    push_cast
    ring

/-! ## JSVal-level lemmas -/

theorem foldl_jsAdd_num (l : List ℚ) : ∀ q : ℚ,
    (l.map JSVal.num).foldl jsAdd (.num q) = .num (q + l.sum) := by
  induction l with
  | nil => intro q; simp [List.foldl]
  | cons a t ih =>
    intro q
    simp only [List.map_cons, List.foldl_cons, jsAdd]
    rw [ih (q + a)]
    simp only [List.sum_cons]
    rw [add_assoc]

theorem jsSum_map_num (l : List ℚ) : jsSum (l.map .num) = .num l.sum := by
  rw [jsSum, foldl_jsAdd_num, zero_add]

theorem renormalize_map_num (l : List ℚ) :
    renormalize (l.map .num) =
      (l.map (fun p => if 0 < l.sum then p / l.sum else 1/25)).map JSVal.num := by
  unfold renormalize
  rw [jsSum_map_num, List.map_map, List.map_map]
  refine List.map_congr_left ?_
  intro p _
  by_cases h : 0 < l.sum <;> simp [jsGtZero, jsDiv, h, Function.comp]

theorem jsMulAt_map_num_neg (l : List ℚ) (idx : ℤ) (f : ℚ) (h : idx < 0) :
    jsMulAt (l.map .num) idx f = l.map .num := by
  simp [jsMulAt, h]

theorem jsMulAt_map_num_inb (l : List ℚ) (idx : ℤ) (f : ℚ) (h0 : 0 ≤ idx)
    (h1 : idx.toNat < l.length) :
    jsMulAt (l.map .num) idx f = (l.set idx.toNat (l.getD idx.toNat 0 * f)).map .num := by
  have hnlt : ¬ idx < 0 := by omega
  have h1' : idx.toNat < (l.map JSVal.num).length := by simpa using h1
  rw [jsMulAt, if_neg hnlt, dif_pos h1', List.map_set]
  congr 1
  have : (l.map JSVal.num).get ⟨idx.toNat, h1'⟩ = .num (l.getD idx.toNat 0) := by
    rw [List.get_eq_getElem, List.getElem_map, List.getD_eq_getElem l 0 h1]
  rw [this, jsMul]

/-! ## Structure of the estimator's stages -/

theorem accumCounts_length (w : ℕ → ℚ) : ∀ (l : List WinnerRecord) (i : ℕ) (counts : List ℚ),
    (accumCounts w l i counts).length = counts.length := by
  intro l
  induction l with
  | nil => intro i c; rfl
  | cons r rest ih =>
    intro i c
    by_cases hc : (0 ≤ r.blockNumber ∧ r.blockNumber < 25)
    · simp only [accumCounts, if_pos hc]
      rw [ih]
      simp
    · simp only [accumCounts, if_neg hc]
      exact ih _ _

theorem countsList_length (w : ℕ → ℚ) (sorted : List WinnerRecord) :
    (countsList w sorted).length = 25 := by
  simp [countsList, accumCounts_length]

theorem accumCounts_nonneg (w : ℕ → ℚ) (hw : ∀ i, 0 ≤ w i) :
    ∀ (l : List WinnerRecord) (i : ℕ) (counts : List ℚ),
    (∀ x ∈ counts, 0 ≤ x) → ∀ x ∈ accumCounts w l i counts, 0 ≤ x := by
  intro l
  induction l with
  | nil => intro i c hc; exact hc
  | cons r rest ih =>
    intro i c hc
    simp only [accumCounts]
    apply ih
    by_cases hcond : (0 ≤ r.blockNumber ∧ r.blockNumber < 25)
    · rw [if_pos hcond]
      intro x hx
      rcases List.mem_or_eq_of_mem_set hx with h | h
      · exact hc x h
      · rw [h]
        have := qgetD_nonneg c hc r.blockNumber.toNat
        have := hw i
        linarith
    · rw [if_neg hcond]
      exact hc

theorem countsList_nonneg (w : ℕ → ℚ) (hw : ∀ i, 0 ≤ w i) (sorted : List WinnerRecord) :
    ∀ x ∈ countsList w sorted, 0 ≤ x := by
  apply accumCounts_nonneg w hw
  intro x hx
  rw [List.eq_of_mem_replicate hx]

theorem basePosterior_length (alpha : ℚ) (counts : List ℚ) :
    (basePosterior alpha counts).length = counts.length := by
  simp [basePosterior]

theorem basePosterior_pos (alpha : ℚ) (counts : List ℚ) (ha : 0 < alpha)
    (hc : ∀ x ∈ counts, 0 ≤ x) : ∀ x ∈ basePosterior alpha counts, 0 < x := by
  intro x hx
  simp only [basePosterior, List.mem_map] at hx
  rcases hx with ⟨c, hcmem, rfl⟩
  have h1 : 0 < alpha + c := by
    have := hc c hcmem
    linarith
  have h2 : 0 < 25 * alpha + counts.sum := by
    have := List.sum_nonneg hc
    linarith
  exact div_pos h1 h2

theorem penalize_nil (probs : List JSVal) : penalize probs [] = probs := rfl

theorem penalize_map_num_exists (l : List ℚ) (sorted : List WinnerRecord)
    (hl : l.length = 25)
    (h : ∀ r ∈ sorted.take 2, r.blockNumber < 25) :
    ∃ l' : List ℚ, penalize (l.map .num) sorted = l'.map .num ∧ l'.length = 25 := by
  cases sorted with
  | nil => exact ⟨l, penalize_nil _, hl⟩
  | cons r0 rest =>
    have h0 : r0.blockNumber < 25 := h r0 (by simp)
    obtain ⟨l1, hl1, hlen1⟩ : ∃ l1 : List ℚ,
        jsMulAt (l.map .num) r0.blockNumber (6/10) = l1.map .num ∧ l1.length = 25 := by
      by_cases hneg : r0.blockNumber < 0
      · exact ⟨l, jsMulAt_map_num_neg _ _ _ hneg, hl⟩
      · refine ⟨l.set r0.blockNumber.toNat (l.getD r0.blockNumber.toNat 0 * (6/10)),
          jsMulAt_map_num_inb l _ _ (by omega) (by omega), by simp [hl]⟩
    cases rest with
    | nil =>
      refine ⟨l1, ?_, hlen1⟩
      simp only [penalize, List.head?_cons]
      rw [hl1]
      rfl
    | cons r1 rest' =>
      have h1 : r1.blockNumber < 25 := h r1 (by simp [List.take])
      obtain ⟨l2, hl2, hlen2⟩ : ∃ l2 : List ℚ,
          jsMulAt (l1.map .num) r1.blockNumber (8/10) = l2.map .num ∧ l2.length = 25 := by
        by_cases hneg : r1.blockNumber < 0
        · exact ⟨l1, jsMulAt_map_num_neg _ _ _ hneg, hlen1⟩
        · refine ⟨l1.set r1.blockNumber.toNat (l1.getD r1.blockNumber.toNat 0 * (8/10)),
            jsMulAt_map_num_inb l1 _ _ (by omega) (by omega), by simp [hlen1]⟩
      refine ⟨l2, ?_, hlen2⟩
      simp only [penalize, List.head?_cons]
      rw [hl1]
      simpa using hl2

/-! ## C6: empty history gives the uniform distribution -/

/-- C6: on the empty history the estimator returns the uniform vector, every
entry being exactly `1/25` (for every `alpha`, including the degenerate
`alpha = 0` where the uniform fallback branch fires), and the anti-streak
stage is the identity (there is no window entry to penalize). -/
theorem dirichlet_empty_uniform (alpha : ℚ) (w : ℕ → ℚ) (maxRounds : ℕ) :
    dirichletTimeDecayedPriors [] alpha w maxRounds = List.replicate 25 (.num (1/25)) ∧
    ∀ probs : List JSVal, penalize probs (sortedWindow [] maxRounds) = probs := by
  have hwin : sortedWindow [] maxRounds = [] := by simp [sortedWindow, sortByRoundDesc]
  constructor
  · simp only [dirichletTimeDecayedPriors, hwin, penalize_nil]
    rw [show countsList w [] = List.replicate 25 (0:ℚ) from rfl]
    have hbase : basePosterior alpha (List.replicate 25 0) =
        List.replicate 25 (alpha / (25 * alpha)) := by
      simp [basePosterior, List.map_replicate]
    rw [hbase, renormalize_map_num]
    by_cases ha : alpha = 0
    · subst ha
      norm_num [List.sum_replicate, List.map_replicate]
    · have hv : alpha / (25 * alpha) = 1/25 := by
        rw [div_eq_div_iff (by positivity) (by norm_num)]
        ring
      rw [hv]
      norm_num [List.sum_replicate, List.map_replicate, nsmul_eq_mul]
  · intro probs
    rw [hwin]
    exact penalize_nil probs

/-! ## C3: probability mass conservation -/

/-- Counterexample to C3: a history whose most recent entry carries the
out-of-range square index 30 makes the anti-streak stage write
`probs[30] *= 0.6`, extending the vector to 31 slots (five holes and a `NaN`),
so the output is not a 25-element vector (and its present entries sum to
`26/25`, not 1, the `NaN` having forced the uniform fallback on 26 present
slots). -/
theorem dirichlet_sum_one_counterexample :
    (dirichletTimeDecayedPriors [⟨1, 30⟩] 1 (fun i => (1/2)^i) 30).length = 31 ∧
    (31 : ℕ) ≠ 25 := by
  constructor
  · rfl
  · decide

/-- C3 (amended): for every history and configuration such that neither of
the two most-recent window entries carries an integer square index `≥ 25`
(in particular for all well-formed histories), the estimator's output is a
25-element vector whose entries sum exactly to 1 in exact arithmetic. -/
theorem dirichlet_sum_one (winners : List WinnerRecord) (alpha : ℚ) (w : ℕ → ℚ)
    (maxRounds : ℕ)
    (h : ∀ r ∈ (sortedWindow winners maxRounds).take 2, r.blockNumber < 25) :
    (dirichletTimeDecayedPriors winners alpha w maxRounds).length = 25 ∧
    jsSum (dirichletTimeDecayedPriors winners alpha w maxRounds) = .num 1 := by
  have hblen : (basePosterior alpha (countsList w (sortedWindow winners maxRounds))).length = 25 := by
    rw [basePosterior_length, countsList_length]
  obtain ⟨l', hpen, hlen'⟩ := penalize_map_num_exists _ (sortedWindow winners maxRounds) hblen h
  have hout : dirichletTimeDecayedPriors winners alpha w maxRounds =
      (l'.map (fun p => if 0 < l'.sum then p / l'.sum else 1/25)).map JSVal.num := by
    simp only [dirichletTimeDecayedPriors]
    rw [hpen, renormalize_map_num]
  rw [hout]
  constructor
  · simp [hlen']
  · rw [jsSum_map_num]
    by_cases hs : 0 < l'.sum
    · simp only [if_pos hs]
      rw [qsum_map_div, div_self (ne_of_gt hs)]
    · simp only [if_neg hs]
      rw [qsum_map_const, hlen']
      norm_num

/-- Witness for `dirichlet_sum_one`: a one-record history with in-range
square index 3. -/
theorem dirichlet_sum_one_witness :
    (∀ r ∈ (sortedWindow [⟨1, 3⟩] 30).take 2, r.blockNumber < 25) ∧
    ((dirichletTimeDecayedPriors [⟨1, 3⟩] 1 (fun _ => 1) 30).length = 25 ∧
      jsSum (dirichletTimeDecayedPriors [⟨1, 3⟩] 1 (fun _ => 1) 30) = .num 1) :=
  ⟨by decide, dirichlet_sum_one [⟨1, 3⟩] 1 (fun _ => 1) 30 (by decide)⟩

/-! ## C8: out-of-range history indices are not fully ignored -/

/-- C8 is a code bug: the counting loop range-checks `blockNumber`, but the
anti-streak stage does not.  On the history `[{round: 1, blockNumber: 25}]`
the entry is ignored by the counting stage, yet the penalty stage executes
`probs[25] *= 0.6`, appending `NaN` to the 25-element vector; the `NaN`
poisons the renormalization sum, the uniform fallback fires, and the output
is a 26-element uniform vector instead of the 25-element uniform vector the
claim (and the spec's documented tolerance) requires. -/
theorem dirichlet_out_of_range_corrupts :
    dirichletTimeDecayedPriors [⟨1, 25⟩] 1 (fun i => (1/2)^i) 30 =
      List.replicate 26 (.num (1/25)) := by
  rfl

theorem qget?_getD (l : List ℚ) (s : ℕ) (h : s < l.length) : l.get? s = some (l.getD s 0) := by
  rw [List.get?_eq_getElem?, List.getElem?_eq_getElem h, List.getD_eq_getElem l 0 h]

theorem qgetD_set_self (l : List ℚ) (i : ℕ) (x : ℚ) (h : i < l.length) :
    (l.set i x).getD i 0 = x := by
  rw [List.getD_eq_getElem _ 0 (by simpa using h), List.getElem_set_self]

theorem qgetD_set_ne (l : List ℚ) (i j : ℕ) (x : ℚ) (hij : i ≠ j) :
    (l.set i x).getD j 0 = l.getD j 0 := by
  by_cases hj : j < l.length
  · rw [List.getD_eq_getElem _ 0 (by simpa using hj), List.getD_eq_getElem l 0 hj,
      List.getElem_set_ne hij]
  · rw [List.getD_eq_default _ 0 (by simp; omega), List.getD_eq_default _ 0 (by omega)]

theorem qset_pos (l : List ℚ) (hpos : ∀ x ∈ l, 0 < x) (i : ℕ) (v : ℚ) (hv : 0 < v) :
    ∀ x ∈ l.set i v, 0 < x := by
  intro x hx
  rcases List.mem_or_eq_of_mem_set hx with h | h
  · exact hpos x h
  · rw [h]; exact hv

theorem renorm_get_value (l : List ℚ) (s : ℕ) (hl : s < l.length)
    (hpos : ∀ x ∈ l, 0 < x) :
    (renormalize (l.map .num)).get? s = some (.num (l.getD s 0 / l.sum)) := by
  have hne : l ≠ [] := by intro hc; rw [hc] at hl; simp at hl
  have hsum : 0 < l.sum := List.sum_pos l hpos hne
  rw [renormalize_map_num]
  simp only [if_pos hsum]
  rw [List.get?_eq_getElem?, List.getElem?_map, List.getElem?_map,
    ← List.get?_eq_getElem?, qget?_getD l s hl]
  rfl

/-! ## C7: effect of the anti-streak stage -/

/-- C7 (amended): for every history whose most recent window entry is a win
of square `s` (and whose second-most-recent entry, if any, is not an
out-of-range index `≥ 25`), and every configuration with `alpha > 0` and
nonnegative decay weights, the estimator's output for `s` is strictly lower
than the output for `s` of the same computation with the anti-streak stage
disabled. -/
theorem dirichlet_antistreak_lowers (winners : List WinnerRecord) (alpha : ℚ) (w : ℕ → ℚ)
    (maxRounds : ℕ) (s : ℕ) (r0 : WinnerRecord) (rest : List WinnerRecord)
    (ha : 0 < alpha) (hw : ∀ i, 0 ≤ w i)
    (hsort : sortedWindow winners maxRounds = r0 :: rest)
    (hr0 : r0.blockNumber = (s : ℤ)) (hs : s < 25)
    (hrest : ∀ r ∈ rest.take 1, r.blockNumber < 25) :
    ∃ p q : ℚ,
      (dirichletTimeDecayedPriors winners alpha w maxRounds).get? s = some (.num p) ∧
      (dirichletNoPenalty winners alpha w maxRounds).get? s = some (.num q) ∧
      p < q := by
  have hcnn := countsList_nonneg w hw (sortedWindow winners maxRounds)
  set counts := countsList w (sortedWindow winners maxRounds) with hcounts
  set base := basePosterior alpha counts with hbase
  have hblen : base.length = 25 := by
    rw [hbase, basePosterior_length, hcounts, countsList_length]
  have hbpos : ∀ x ∈ base, 0 < x := basePosterior_pos alpha counts ha hcnn
  have hbne : base ≠ [] := by intro hc; rw [hc] at hblen; simp at hblen
  have hbsum : 0 < base.sum := List.sum_pos base hbpos hbne
  set Q := base.getD s 0 with hQ
  have hQpos : 0 < Q := qgetD_pos base hbpos s (by omega)
  have hQlt : Q < base.sum := qgetD_lt_sum base hbpos (by omega) s (by omega)
  have hq : (dirichletNoPenalty winners alpha w maxRounds).get? s =
      some (.num (Q / base.sum)) := by
    simp only [dirichletNoPenalty]
    rw [← hcounts, ← hbase]
    exact renorm_get_value base s (by omega) hbpos
  have h1mul : jsMulAt (base.map .num) r0.blockNumber (6/10) =
      (base.set s (Q * (6/10))).map .num := by
    rw [hr0, jsMulAt_map_num_inb base _ _ (by omega) (by rw [Int.toNat_natCast]; omega)]
    simp only [Int.toNat_natCast]
  set b1 := base.set s (Q * (6/10)) with hb1
  have hb1pos : ∀ x ∈ b1, 0 < x :=
    qset_pos base hbpos s _ (mul_pos hQpos (by norm_num))
  have hb1len : b1.length = 25 := by rw [hb1, List.length_set, hblen]
  have hb1sum : b1.sum = base.sum - Q + Q * (6/10) := by
    rw [hb1, qsum_set base s _ (by omega), ← hQ]
  have hb1getD : b1.getD s 0 = Q * (6/10) := by
    rw [hb1, qgetD_set_self base s _ (by omega)]
  rcases rest with _ | ⟨r1, rest'⟩
  · -- single window entry: only the 0.6 penalty applies
    have hpen : penalize (base.map .num) [r0] = b1.map .num := by
      simp only [penalize, List.head?_cons]
      rw [h1mul]
      simp only [List.getElem?_cons_succ, List.getElem?_nil]
    have hp : (dirichletTimeDecayedPriors winners alpha w maxRounds).get? s =
        some (.num (b1.getD s 0 / b1.sum)) := by
      simp only [dirichletTimeDecayedPriors]
      rw [← hcounts, ← hbase, hsort, hpen]
      exact renorm_get_value b1 s (by omega) hb1pos
    refine ⟨_, _, hp, hq, ?_⟩
    rw [hb1getD, hb1sum]
    rw [div_lt_div_iff₀ (by linarith) hbsum]
    nlinarith [mul_pos hQpos (sub_pos.2 hQlt)]
  · have h1r : r1.blockNumber < 25 := hrest r1 (by simp [List.take])
    by_cases hneg : r1.blockNumber < 0
    · -- second entry has a negative index: the 0.8 write is a no-op
      have hpen : penalize (base.map .num) (r0 :: r1 :: rest') = b1.map .num := by
        simp only [penalize, List.head?_cons, List.getElem?_cons_succ,
          List.getElem?_cons_zero]
        rw [h1mul, jsMulAt_map_num_neg _ _ _ hneg]
      have hp : (dirichletTimeDecayedPriors winners alpha w maxRounds).get? s =
          some (.num (b1.getD s 0 / b1.sum)) := by
        simp only [dirichletTimeDecayedPriors]
        rw [← hcounts, ← hbase, hsort, hpen]
        exact renorm_get_value b1 s (by omega) hb1pos
      refine ⟨_, _, hp, hq, ?_⟩
      rw [hb1getD, hb1sum]
      rw [div_lt_div_iff₀ (by linarith) hbsum]
      nlinarith [mul_pos hQpos (sub_pos.2 hQlt)]
    · set t := r1.blockNumber.toNat with htdef
      have htr : r1.blockNumber = (t : ℤ) := by omega
      have ht25 : t < 25 := by omega
      by_cases hts : t = s
      · -- both penalties hit square s
        have hpen : penalize (base.map .num) (r0 :: r1 :: rest') =
            (base.set s (Q * (6/10) * (8/10))).map .num := by
          simp only [penalize, List.head?_cons, List.getElem?_cons_succ,
            List.getElem?_cons_zero]
          rw [h1mul, htr, hts,
            jsMulAt_map_num_inb b1 _ _ (by omega) (by rw [Int.toNat_natCast]; omega)]
          simp only [Int.toNat_natCast]
          rw [hb1getD, hb1, List.set_set]
        set b2 := base.set s (Q * (6/10) * (8/10)) with hb2
        have hb2pos : ∀ x ∈ b2, 0 < x :=
          qset_pos base hbpos s _ (by positivity)
        have hb2len : b2.length = 25 := by rw [hb2, List.length_set, hblen]
        have hb2sum : b2.sum = base.sum - Q + Q * (6/10) * (8/10) := by
          rw [hb2, qsum_set base s _ (by omega), ← hQ]
        have hb2getD : b2.getD s 0 = Q * (6/10) * (8/10) := by
          rw [hb2, qgetD_set_self base s _ (by omega)]
        have hp : (dirichletTimeDecayedPriors winners alpha w maxRounds).get? s =
            some (.num (b2.getD s 0 / b2.sum)) := by
          simp only [dirichletTimeDecayedPriors]
          rw [← hcounts, ← hbase, hsort, hpen]
          exact renorm_get_value b2 s (by omega) hb2pos
        refine ⟨_, _, hp, hq, ?_⟩
        rw [hb2getD, hb2sum]
        rw [div_lt_div_iff₀ (by linarith) hbsum]
        nlinarith [mul_pos hQpos (sub_pos.2 hQlt)]
      · -- the 0.8 penalty hits a different square t
        set QT := base.getD t 0 with hQT
        have hQTpos : 0 < QT := qgetD_pos base hbpos t (by omega)
        have hpair : Q + QT ≤ base.sum :=
          qgetD_pair_le_sum base (fun x hx => le_of_lt (hbpos x hx)) s t
            (fun hc => hts hc.symm) (by omega) (by omega)
        have hb1getDt : b1.getD t 0 = QT := by
          rw [hb1, qgetD_set_ne base s t _ (fun hc => hts hc.symm), ← hQT]
        have hpen : penalize (base.map .num) (r0 :: r1 :: rest') =
            (b1.set t (QT * (8/10))).map .num := by
          simp only [penalize, List.head?_cons, List.getElem?_cons_succ,
            List.getElem?_cons_zero]
          rw [h1mul, htr,
            jsMulAt_map_num_inb b1 _ _ (by omega) (by rw [Int.toNat_natCast]; omega)]
          simp only [Int.toNat_natCast]
          rw [hb1getDt]
        set b2 := b1.set t (QT * (8/10)) with hb2
        have hb2pos : ∀ x ∈ b2, 0 < x :=
          qset_pos b1 hb1pos t _ (by positivity)
        have hb2len : b2.length = 25 := by rw [hb2, List.length_set, hb1len]
        have hb2sum : b2.sum = base.sum - Q + Q * (6/10) - QT + QT * (8/10) := by
          rw [hb2, qsum_set b1 t _ (by omega), hb1getDt, hb1sum]
        have hb2getD : b2.getD s 0 = Q * (6/10) := by
          rw [hb2, qgetD_set_ne b1 t s _ hts, hb1getD]
        have hp : (dirichletTimeDecayedPriors winners alpha w maxRounds).get? s =
            some (.num (b2.getD s 0 / b2.sum)) := by
          simp only [dirichletTimeDecayedPriors]
          rw [← hcounts, ← hbase, hsort, hpen]
          exact renorm_get_value b2 s (by omega) hb2pos
        refine ⟨_, _, hp, hq, ?_⟩
        rw [hb2getD, hb2sum]
        rw [div_lt_div_iff₀ (by linarith) hbsum]
        nlinarith [mul_pos hQpos hQTpos,
          mul_le_mul_of_nonneg_left hpair (le_of_lt hQpos)]

theorem qgetD_map (l : List ℚ) (f : ℚ → ℚ) (i : ℕ) (h : i < l.length) :
    (l.map f).getD i 0 = f (l.getD i 0) := by
  rw [List.getD_eq_getElem _ 0 (by simpa using h), List.getD_eq_getElem l 0 h, List.getElem_map]

theorem qsum_map_affine_div (l : List ℚ) (alpha D : ℚ) :
    (l.map (fun c => (alpha + c) / D)).sum = ((l.length : ℚ) * alpha + l.sum) / D := by
  induction l with
  | nil => simp
  | cons a t ih =>
    simp only [List.map_cons, List.sum_cons, List.length_cons, ih, div_add_div_same]
    congr 1
    push_cast
    ring

theorem basePosterior_sum (alpha : ℚ) (counts : List ℚ) (h : counts.length = 25)
    (hne : 25 * alpha + counts.sum ≠ 0) :
    (basePosterior alpha counts).sum = 1 := by
  rw [basePosterior, qsum_map_affine_div, h]
  rw [show ((25:ℕ):ℚ) = (25:ℚ) from by norm_num]
  exact div_self hne

/-- The closed-form output entry for square `s` when `s` won both of the two
most recent window rounds (both anti-streak penalties hit `s`). -/
theorem dirichlet_value_both_s (winners : List WinnerRecord) (alpha : ℚ) (w : ℕ → ℚ)
    (maxRounds : ℕ) (s : ℕ) (r0 r1 : WinnerRecord) (rest' : List WinnerRecord)
    (ha : 0 < alpha) (hw : ∀ i, 0 ≤ w i)
    (hsort : sortedWindow winners maxRounds = r0 :: r1 :: rest')
    (hr0 : r0.blockNumber = (s : ℤ)) (hr1 : r1.blockNumber = (s : ℤ)) (hs : s < 25) :
    (dirichletTimeDecayedPriors winners alpha w maxRounds).get? s =
      some (.num
        ((basePosterior alpha (countsList w (sortedWindow winners maxRounds))).getD s 0
            * (6/10) * (8/10) /
         ((basePosterior alpha (countsList w (sortedWindow winners maxRounds))).sum -
          (basePosterior alpha (countsList w (sortedWindow winners maxRounds))).getD s 0 +
          (basePosterior alpha (countsList w (sortedWindow winners maxRounds))).getD s 0
            * (6/10) * (8/10)))) := by
  have hcnn := countsList_nonneg w hw (sortedWindow winners maxRounds)
  set counts := countsList w (sortedWindow winners maxRounds) with hcounts
  set base := basePosterior alpha counts with hbase
  have hblen : base.length = 25 := by
    rw [hbase, basePosterior_length, hcounts, countsList_length]
  have hbpos : ∀ x ∈ base, 0 < x := basePosterior_pos alpha counts ha hcnn
  set Q := base.getD s 0 with hQ
  have hQpos : 0 < Q := qgetD_pos base hbpos s (by omega)
  have h1mul : jsMulAt (base.map .num) r0.blockNumber (6/10) =
      (base.set s (Q * (6/10))).map .num := by
    rw [hr0, jsMulAt_map_num_inb base _ _ (by omega) (by rw [Int.toNat_natCast]; omega)]
    simp only [Int.toNat_natCast]
  set b1 := base.set s (Q * (6/10)) with hb1
  have hb1getD : b1.getD s 0 = Q * (6/10) := by
    rw [hb1, qgetD_set_self base s _ (by omega)]
  have hpen : penalize (base.map .num) (r0 :: r1 :: rest') =
      (base.set s (Q * (6/10) * (8/10))).map .num := by
    simp only [penalize, List.head?_cons, List.getElem?_cons_succ,
      List.getElem?_cons_zero]
    rw [h1mul, hr1,
      jsMulAt_map_num_inb b1 _ _ (by omega) (by rw [Int.toNat_natCast, hb1, List.length_set]; omega)]
    simp only [Int.toNat_natCast]
    rw [hb1getD, hb1, List.set_set]
  set b2 := base.set s (Q * (6/10) * (8/10)) with hb2
  have hb2pos : ∀ x ∈ b2, 0 < x :=
    qset_pos base hbpos s _ (by positivity)
  have hb2sum : b2.sum = base.sum - Q + Q * (6/10) * (8/10) := by
    rw [hb2, qsum_set base s _ (by omega)]
  have hb2getD : b2.getD s 0 = Q * (6/10) * (8/10) := by
    rw [hb2, qgetD_set_self base s _ (by omega)]
  have hp : (dirichletTimeDecayedPriors winners alpha w maxRounds).get? s =
      some (.num (b2.getD s 0 / b2.sum)) := by
    simp only [dirichletTimeDecayedPriors]
    rw [← hcounts, ← hbase, hsort, hpen]
    exact renorm_get_value b2 s (by rw [hb2, List.length_set]; omega) hb2pos
  rw [hp, hb2getD, hb2sum]

/-- Counterexample to C7: take the history in which square 5 won rounds 3, 2
and 1 (with `alpha = 1`, `halfLife = 1`, i.e. weights `(1/2)^i`, and
`maxRounds = 30`).  Removing the most recent win leaves `[⟨2,5⟩, ⟨1,5⟩]`.
The estimator gives square 5 probability `11/211 ≈ 0.0521` on the full
history and `1/21 ≈ 0.0476` on the shortened one: removing the most recent
win also removes its decayed count, which outweighs the 0.6/0.8 penalties,
so the output with the extra win is strictly HIGHER, not lower. -/
theorem dirichlet_antistreak_claim_counterexample :
    (dirichletTimeDecayedPriors [⟨3,5⟩,⟨2,5⟩,⟨1,5⟩] 1 (fun i => (1/2)^i) 30).get? 5 =
      some (.num (11/211)) ∧
    (dirichletTimeDecayedPriors [⟨2,5⟩,⟨1,5⟩] 1 (fun i => (1/2)^i) 30).get? 5 =
      some (.num (1/21)) ∧
    ¬ ((11:ℚ)/211 < 1/21) := by
  have hrep5 : ((List.replicate 25 (0:ℚ)).set 5 ((7:ℚ)/4)).length = 25 := by simp
  have hrep5' : ((List.replicate 25 (0:ℚ)).set 5 ((3:ℚ)/2)).length = 25 := by simp
  have hgd0 : (List.replicate 25 (0:ℚ)).getD 5 0 = 0 := by
    rw [List.getD_eq_getElem _ 0 (by simp), List.getElem_replicate]
  refine ⟨?_, ?_, by norm_num⟩
  · rw [dirichlet_value_both_s [⟨3,5⟩,⟨2,5⟩,⟨1,5⟩] 1 (fun i => (1/2)^i) 30 5 ⟨3,5⟩ ⟨2,5⟩
      [⟨1,5⟩] (by norm_num) (fun i => by positivity) (by decide) (by decide) (by decide)
      (by norm_num)]
    have hc1 : countsList (fun i => ((1:ℚ)/2)^i) (sortedWindow [⟨3,5⟩,⟨2,5⟩,⟨1,5⟩] 30) =
        (List.replicate 25 (0:ℚ)).set 5
          (0 + ((1:ℚ)/2)^(0:ℕ) + ((1:ℚ)/2)^(1:ℕ) + ((1:ℚ)/2)^(2:ℕ)) := by rfl
    rw [hc1, show (0 + ((1:ℚ)/2)^(0:ℕ) + ((1:ℚ)/2)^(1:ℕ) + ((1:ℚ)/2)^(2:ℕ)) = 7/4 by norm_num]
    have hsum5 : ((List.replicate 25 (0:ℚ)).set 5 ((7:ℚ)/4)).sum = 7/4 := by
      rw [qsum_set _ 5 _ (by simp), hgd0]
      simp [List.sum_replicate]
    have hq5 : (basePosterior 1 ((List.replicate 25 (0:ℚ)).set 5 ((7:ℚ)/4))).getD 5 0 =
        (1 + 7/4) / (25 * 1 + 7/4) := by
      rw [basePosterior, qgetD_map _ _ 5 (by simp), qgetD_set_self _ 5 _ (by simp), hsum5]
    have hS : (basePosterior 1 ((List.replicate 25 (0:ℚ)).set 5 ((7:ℚ)/4))).sum = 1 :=
      basePosterior_sum 1 _ hrep5 (by rw [hsum5]; norm_num)
    rw [hq5, hS]
    norm_num
  · rw [dirichlet_value_both_s [⟨2,5⟩,⟨1,5⟩] 1 (fun i => (1/2)^i) 30 5 ⟨2,5⟩ ⟨1,5⟩
      [] (by norm_num) (fun i => by positivity) (by decide) (by decide) (by decide)
      (by norm_num)]
    have hc2 : countsList (fun i => ((1:ℚ)/2)^i) (sortedWindow [⟨2,5⟩,⟨1,5⟩] 30) =
        (List.replicate 25 (0:ℚ)).set 5 (0 + ((1:ℚ)/2)^(0:ℕ) + ((1:ℚ)/2)^(1:ℕ)) := by rfl
    rw [hc2, show (0 + ((1:ℚ)/2)^(0:ℕ) + ((1:ℚ)/2)^(1:ℕ)) = 3/2 by norm_num]
    have hsum5 : ((List.replicate 25 (0:ℚ)).set 5 ((3:ℚ)/2)).sum = 3/2 := by
      rw [qsum_set _ 5 _ (by simp), hgd0]
      simp [List.sum_replicate]
    have hq5 : (basePosterior 1 ((List.replicate 25 (0:ℚ)).set 5 ((3:ℚ)/2))).getD 5 0 =
        (1 + 3/2) / (25 * 1 + 3/2) := by
      rw [basePosterior, qgetD_map _ _ 5 (by simp), qgetD_set_self _ 5 _ (by simp), hsum5]
    have hS : (basePosterior 1 ((List.replicate 25 (0:ℚ)).set 5 ((3:ℚ)/2))).sum = 1 :=
      basePosterior_sum 1 _ hrep5' (by rw [hsum5]; norm_num)
    rw [hq5, hS]
    norm_num

/-- Witness for `dirichlet_antistreak_lowers`: square 5 won the most recent
round of the history `[⟨2,5⟩, ⟨1,3⟩]` (uniform weights, `alpha = 1`). -/
theorem dirichlet_antistreak_lowers_witness :
    ∃ p q : ℚ,
      (dirichletTimeDecayedPriors [⟨2,5⟩, ⟨1,3⟩] 1 (fun _ => 1) 30).get? 5 =
        some (.num p) ∧
      (dirichletNoPenalty [⟨2,5⟩, ⟨1,3⟩] 1 (fun _ => 1) 30).get? 5 = some (.num q) ∧
      p < q :=
  dirichlet_antistreak_lowers [⟨2,5⟩, ⟨1,3⟩] 1 (fun _ => 1) 30 5 ⟨2,5⟩ [⟨1,3⟩]
    (by norm_num) (fun _ => by norm_num) (by decide) (by decide) (by norm_num) (by decide)

/-! ## C9: the ranker -/

/-- C9: for every vector and every `n ≤ length`, `topN` returns `n` pairs,
the prefix of a sorted permutation of the index-enumerated vector: ordered
descending by value with ties broken by ascending square index (hence
deterministic), and every returned pair's value dominates every pair left
out. -/
theorem topN_spec (probs : List ℚ) (n : ℕ) (hn : n ≤ probs.length) :
    (topN probs n).length = n ∧
    (sortedEnum probs).Perm probs.enum ∧
    List.Pairwise (fun a b : ℕ × ℚ => b.2 < a.2 ∨ (a.2 = b.2 ∧ a.1 < b.1)) (topN probs n) ∧
    ∀ a ∈ topN probs n, ∀ b ∈ (sortedEnum probs).drop n, b.2 ≤ a.2 := by
  have hperm : (sortedEnum probs).Perm probs.enum :=
    List.perm_insertionSort lexDesc probs.enum
  have hlen : (sortedEnum probs).length = probs.length := by
    rw [hperm.length_eq, List.enum_length]
  have hsorted : List.Pairwise lexDesc (sortedEnum probs) :=
    List.sorted_insertionSort lexDesc probs.enum
  have hnodup : ((sortedEnum probs).map Prod.fst).Nodup :=
    ((hperm.map Prod.fst).nodup_iff).2 (List.nodup_enum_map_fst probs)
  have hne : List.Pairwise (fun a b : ℕ × ℚ => a.1 ≠ b.1) (sortedEnum probs) :=
    (List.pairwise_map).1 hnodup
  have hstrict : List.Pairwise
      (fun a b : ℕ × ℚ => b.2 < a.2 ∨ (a.2 = b.2 ∧ a.1 < b.1)) (sortedEnum probs) := by
    refine (hsorted.and hne).imp ?_
    rintro a b ⟨hl, hne'⟩
    rcases hl with h | ⟨he, hle⟩
    · exact Or.inl h
    · exact Or.inr ⟨he, lt_of_le_of_ne hle hne'⟩
  refine ⟨?_, hperm, ?_, ?_⟩
  · rw [topN, List.length_take, hlen]
    omega
  · exact hstrict.sublist (List.take_sublist n _)
  · intro a ha b hb
    have hsplit : List.Pairwise lexDesc
        ((sortedEnum probs).take n ++ (sortedEnum probs).drop n) := by
      rw [List.take_append_drop]
      exact hsorted
    rw [List.pairwise_append] at hsplit
    rcases hsplit.2.2 a ha b hb with h | ⟨he, _⟩
    · exact le_of_lt h
    · exact le_of_eq he.symm

/-- Witness for `topN_spec`: the vector `[3/2, 1/2, 3/2]` with `n = 2`. -/
theorem topN_spec_witness :
    (2 ≤ ([3/2, 1/2, 3/2] : List ℚ).length) ∧ (topN [3/2, 1/2, 3/2] 2).length = 2 :=
  ⟨by norm_num, (topN_spec [3/2, 1/2, 3/2] 2 (by norm_num)).1⟩

